import Mathlib

/-
Verification of the weekly-report template substitution engine (src/main.py).

The embedding models:
  * text as lists of characters (a paragraph text is the concatenation of
    the texts of its runs, as in the python-docx `paragraph.text` property);
  * `replace_in_paragraph` / `render_docx_template` (src/main.py lines 73-130):
    per-paragraph whole-text substitution of the tokens built from the keys
    NAME, DATE, SUMMARY and PLAN, over body paragraphs, body table cells,
    and header/footer paragraphs and table cells of every section;
  * the export route `export_report` (src/main.py lines 225-257): context
    construction from a report record, output filename computed with the
    Python str.format mini-language, and the write of the rendered document
    into the upload directory, modelled as a map from file names to documents;
  * Python string primitives used by the source: `str.replace` (left-to-right,
    non-overlapping replacement of every occurrence), the `in` substring test,
    and the `str.format` field substitution with doubled-brace escapes.

Recursions that consume a non-structural amount of input (`str.replace` skips
over the matched pattern, `str.format` skips over a parsed field) are defined
with an explicit fuel argument equal to the input length, so that every
definition is a computable structural recursion.
-/

abbrev Text := List Char

def str (s : String) : Text := s.data

abbrev Context := List (Text × Text)

/-- A run inside a paragraph: its text plus an opaque tag standing for the
run-level formatting that python-docx attaches to a run. -/
structure Run where
  text : Text
  fmt : Nat
deriving DecidableEq, Repr

/-- A paragraph is an ordered list of runs (python-docx `Paragraph.runs`). -/
structure Paragraph where
  runs : List Run
deriving DecidableEq, Repr

/-- The `paragraph.text` property: concatenation of the texts of all runs. -/
def Paragraph.text (p : Paragraph) : Text := (p.runs.map Run.text).flatten

abbrev Cell := List Paragraph

abbrev Row := List Cell

abbrev Table := List Row

/-- A header or footer region: its paragraphs and its tables. -/
structure HeaderFooter where
  paragraphs : List Paragraph
  tables : List Table
deriving DecidableEq, Repr

/-- A document section with its header and footer. -/
structure DocSection where
  header : HeaderFooter
  footer : HeaderFooter
deriving DecidableEq, Repr

/-- The document tree walked by `render_docx_template`: body paragraphs,
body tables, and the sections with their headers and footers. -/
structure Docx where
  paragraphs : List Paragraph
  tables : List Table
  sections : List DocSection
deriving DecidableEq, Repr

/-- Python substring test `pat in s`: some suffix of `s` starts with `pat`. -/
def containsSub (pat : Text) : Text → Bool
  | [] => List.isPrefixOf pat []
  | c :: cs => List.isPrefixOf pat (c :: cs) || containsSub pat cs

/-- Fueled core of Python `s.replace(pat, rep)`: scan left to right; when
`pat` starts at the current position consume it and emit `rep`, otherwise
keep one character.  With fuel at least the input length the fuel never
runs out (for a non-empty pattern each step consumes at least one char). -/
def replaceAllF (pat rep : Text) : Nat → Text → Text
  | _, [] => []
  | 0, s => s
  | fuel + 1, c :: cs =>
    if pat ≠ [] ∧ List.isPrefixOf pat (c :: cs) = true then
      rep ++ replaceAllF pat rep fuel (List.drop pat.length (c :: cs))
    else
      c :: replaceAllF pat rep fuel cs

/-- Python `s.replace(pat, rep)` for a non-empty pattern. -/
def replaceAll (pat rep s : Text) : Text := replaceAllF pat rep s.length s

/-- Fueled splitter mirroring `replaceAllF`: cut `s` at every (left-to-right,
non-overlapping) occurrence of `pat`.  `replaceAll` is the interleaving of
these chunks with the replacement text. -/
def splitChunksF (pat : Text) : Nat → Text → List Text
  | _, [] => [[]]
  | 0, s => [s]
  | fuel + 1, c :: cs =>
    if pat ≠ [] ∧ List.isPrefixOf pat (c :: cs) = true then
      [] :: splitChunksF pat fuel (List.drop pat.length (c :: cs))
    else
      match splitChunksF pat fuel cs with
      | [] => [[c]]
      | t :: ts => (c :: t) :: ts

/-- Python `s.split(pat)` for a non-empty pattern. -/
def splitChunks (pat s : Text) : List Text := splitChunksF pat s.length s

/-- Interleave a separator between chunks (Python `sep.join(chunks)`). -/
def joinWith (sep : Text) : List Text → Text
  | [] => []
  | [x] => x
  | x :: y :: rest => x ++ sep ++ joinWith sep (y :: rest)

/-- The placeholder token of a key (src/main.py line 93). -/
def placeholder (key : Text) : Text := '{' :: '{' :: (key ++ ['}', '}'])

/-- The per-key loop of `replace_in_paragraph` (src/main.py lines 92-95):
for each key in context order, if its token occurs in the current text,
replace every occurrence by the value. -/
def applyContext : Context → Text → Text
  | [], t => t
  | (k, v) :: rest, t =>
    applyContext rest
      (if containsSub (placeholder k) t = true then replaceAll (placeholder k) v t else t)

/-- `replace_in_paragraph` (src/main.py lines 87-97): skip paragraphs with
empty text; otherwise substitute on the concatenated text and, only when the
text changed, write it back as the sole run of the paragraph (the python-docx
text setter replaces all runs by a single default-formatted run). -/
def replace_in_paragraph (context : Context) (p : Paragraph) : Paragraph :=
  if p.text = [] then p
  else
    let text := p.text
    let new_text := applyContext context text
    if new_text ≠ text then { runs := [{ text := new_text, fmt := 0 }] } else p

/-- Substitution over one table: every paragraph of every cell of every row
(src/main.py lines 104-108). -/
def renderTable (context : Context) (t : Table) : Table :=
  t.map (fun row => row.map (fun cell => cell.map (replace_in_paragraph context)))

/-- Substitution over a header or footer region (src/main.py lines 111-128). -/
def renderHeaderFooter (context : Context) (h : HeaderFooter) : HeaderFooter :=
  { paragraphs := h.paragraphs.map (replace_in_paragraph context)
    tables := h.tables.map (renderTable context) }

/-- `render_docx_template` (src/main.py lines 73-130) on the parsed document
tree: body paragraphs, body tables, then the header and footer of every
section. -/
def render_docx_template (context : Context) (doc : Docx) : Docx :=
  { paragraphs := doc.paragraphs.map (replace_in_paragraph context)
    tables := doc.tables.map (renderTable context)
    sections := doc.sections.map (fun s =>
      { header := renderHeaderFooter context s.header
        footer := renderHeaderFooter context s.footer }) }

/-- All paragraphs of a table, row-major then column-major. -/
def tableParagraphs (t : Table) : List Paragraph :=
  (t.map List.flatten).flatten

/-- All paragraphs of a header or footer region. -/
def headerFooterParagraphs (h : HeaderFooter) : List Paragraph :=
  h.paragraphs ++ (h.tables.map tableParagraphs).flatten

/-- Every paragraph the traversal of `render_docx_template` visits. -/
def allParagraphs (doc : Docx) : List Paragraph :=
  doc.paragraphs ++ (doc.tables.map tableParagraphs).flatten ++
    (doc.sections.map
      (fun s => headerFooterParagraphs s.header ++ headerFooterParagraphs s.footer)).flatten

/-- Error taxonomy of the engine (spec section 7): loading a malformed
template fails, and the failure propagates to the caller. -/
inductive TemplateError where
  | templateLoadError
  | templateSaveError
deriving DecidableEq, Repr

/-- `render_docx_template` as called on raw template bytes (src/main.py line 85
parses, line 130 saves).  The python-docx parser is an external library, so it
is abstracted as an arbitrary partial decoding function `decode`; a byte
stream on which it fails is exactly an input that is not parseable as a
document package.  The second component lists the documents written to the
output destination during the call: nothing is written unless parsing and the
full substitution pass succeeded, after which the rendered document is saved. -/
def render_from_bytes (decode : List Nat → Option Docx) (context : Context)
    (templateBytes : List Nat) : Except TemplateError Docx × List Docx :=
  match decode templateBytes with
  | none => (Except.error TemplateError.templateLoadError, [])
  | some doc =>
    let out := render_docx_template context doc
    (Except.ok out, [out])

/-- Errors of the Python str.format mini-language as raised on the filename
pattern (src/main.py lines 244-247): ValueError for brace syntax errors,
IndexError for positional fields (there are no positional arguments), and
KeyError for an unknown keyword field. -/
inductive FmtError where
  | valueError
  | indexError
  | keyError (key : Text)
deriving DecidableEq, Repr

/-- Keyword lookup of str.format: first binding wins. -/
def lookupKw (kwargs : List (Text × Text)) (k : Text) : Option Text :=
  match kwargs with
  | [] => none
  | (k', v) :: rest => if k = k' then some v else lookupKw rest k

/-- A field consisting only of digits (or empty, by auto-numbering) is a
positional field: with no positional arguments it raises IndexError. -/
def isDigitsText (s : Text) : Bool := s.all Char.isDigit

/-- Fueled core of Python `pattern.format(...)` restricted to the feature set
the repository exercises: literal text, doubled-brace escapes, and bare
keyword replacement fields.  Conversion and format-spec suffixes inside a
field are not modelled (such a field is treated as an unknown key); the
stored filename patterns use only bare fields.  Fuel at least the pattern
length suffices since every step consumes at least one character. -/
def pyFormatF (kwargs : List (Text × Text)) : Nat → Text → Except FmtError Text
  | _, [] => Except.ok []
  | 0, _ => Except.error FmtError.valueError
  | fuel + 1, c :: rest =>
    if c = '{' then
      match rest with
      | [] => Except.error FmtError.valueError
      | d :: rest1 =>
        if d = '{' then
          Except.map (fun t => '{' :: t) (pyFormatF kwargs fuel rest1)
        else
          match List.dropWhile (fun x => x ≠ '}') rest with
          | [] => Except.error FmtError.valueError
          | _ :: rest2 =>
            let fld := List.takeWhile (fun x => x ≠ '}') rest
            if isDigitsText fld = true then Except.error FmtError.indexError
            else
              match lookupKw kwargs fld with
              | some v => Except.map (fun t => v ++ t) (pyFormatF kwargs fuel rest2)
              | none => Except.error (FmtError.keyError fld)
    else if c = '}' then
      match rest with
      | [] => Except.error FmtError.valueError
      | d :: rest1 =>
        if d = '}' then
          Except.map (fun t => '}' :: t) (pyFormatF kwargs fuel rest1)
        else Except.error FmtError.valueError
    else
      Except.map (fun t => c :: t) (pyFormatF kwargs fuel rest)

/-- Python `pattern.format(NAME=..., DATE=...)` as used on the filename
pattern (src/main.py lines 244-247). -/
def pyFormat (kwargs : List (Text × Text)) (pattern : Text) : Except FmtError Text :=
  pyFormatF kwargs pattern.length pattern

/-- Fueled scanner extracting the replacement fields of a format pattern,
mirroring the case analysis of `pyFormatF`; `none` on a brace syntax error. -/
def patternFieldsF : Nat → Text → Option (List Text)
  | _, [] => some []
  | 0, _ => none
  | fuel + 1, c :: rest =>
    if c = '{' then
      match rest with
      | [] => none
      | d :: rest1 =>
        if d = '{' then patternFieldsF fuel rest1
        else
          match List.dropWhile (fun x => x ≠ '}') rest with
          | [] => none
          | _ :: rest2 =>
            (patternFieldsF fuel rest2).map
              (fun l => List.takeWhile (fun x => x ≠ '}') rest :: l)
    else if c = '}' then
      match rest with
      | [] => none
      | d :: rest1 => if d = '}' then patternFieldsF fuel rest1 else none
    else patternFieldsF fuel rest

/-- The replacement fields of a format pattern in order. -/
def patternFields (pattern : Text) : Option (List Text) :=
  patternFieldsF pattern.length pattern

/-- A single-brace filename token such as the one for NAME or DATE. -/
def fmtToken (key : Text) : Text := '{' :: (key ++ ['}'])

/-- One-pass exact replacement of the two filename tokens with no escape
mechanism.  Modelled from the words of the spec, for comparison with the
source semantics `pyFormat`: "exact, case-sensitive, brace-delimited string
replacement ... exactly one substitution pass ... no escaping". -/
def specOnePassF (nameVal dateVal : Text) : Nat → Text → Text
  | _, [] => []
  | 0, s => s
  | fuel + 1, c :: cs =>
    if List.isPrefixOf (fmtToken (str "NAME")) (c :: cs) = true then
      nameVal ++ specOnePassF nameVal dateVal fuel (List.drop 6 (c :: cs))
    else if List.isPrefixOf (fmtToken (str "DATE")) (c :: cs) = true then
      dateVal ++ specOnePassF nameVal dateVal fuel (List.drop 6 (c :: cs))
    else c :: specOnePassF nameVal dateVal fuel cs

/-- Spec-words one-pass formatter on a whole pattern. -/
def specOnePassFormat (nameVal dateVal s : Text) : Text :=
  specOnePassF nameVal dateVal s.length s

/-- A calendar date as stored on a report record. -/
structure PyDate where
  year : Nat
  month : Nat
  day : Nat
deriving DecidableEq, Repr

/-- Left-pad a digit string with zeros to the given width. -/
def padZero (width : Nat) (s : Text) : Text :=
  List.replicate (width - s.length) '0' ++ s

/-- Python `date.isoformat()`: YYYY-MM-DD with zero padding. -/
def PyDate.isoformat (d : PyDate) : Text :=
  padZero 4 (Nat.toDigits 10 d.year) ++ '-' ::
    (padZero 2 (Nat.toDigits 10 d.month) ++ '-' :: padZero 2 (Nat.toDigits 10 d.day))

/-- A WeeklyReport row as consumed by the export route: `name`, `summary`
and `plan` are nullable columns, `date` is required.  `none` stands for SQL
NULL; `some []` is an empty string, which Python also treats as falsy. -/
structure Report where
  name : Option Text
  date : PyDate
  summary : Option Text
  plan : Option Text
deriving DecidableEq, Repr

/-- Python `value or default` on an optional string: both None and the empty
string are falsy and give the default. -/
def pyOrStr (v : Option Text) (dflt : Text) : Text :=
  match v with
  | none => dflt
  | some s => if s = [] then dflt else s

/-- The substitution context built by `export_report` (src/main.py lines
235-240), in Python dict insertion order: NAME, DATE, SUMMARY, PLAN. -/
def contextOf (r : Report) : Context :=
  [ (str "NAME", pyOrStr r.name []),
    (str "DATE", r.date.isoformat),
    (str "SUMMARY", pyOrStr r.summary []),
    (str "PLAN", pyOrStr r.plan []) ]

/-- `safe_name` (src/main.py line 243): the filename fallback for a missing
or empty name. -/
def safe_name (r : Report) : Text := pyOrStr r.name (str "未命名")

/-- `get_template_path` (src/main.py lines 64-66): the fixed template file
name inside the upload directory. -/
def get_template_path : Text := str "weekly_report_template.docx"

/-- The export-time errors surfaced by the route: missing template (the
route redirects to the settings page) or a filename formatting error. -/
inductive ExportError where
  | noTemplate
  | formatError (e : FmtError)
deriving DecidableEq, Repr

/-- The upload directory as a map from file names to stored documents. -/
abbrev FileStore := Text → Option Docx

/-- `export_report` (src/main.py lines 225-257) on the file store: check the
template exists, build the context, format the output filename from the
configured pattern with `safe_name` and the ISO date, render the template
and save the result under the computed filename in the upload directory.
Returns the updated store and the filename. -/
def export_report (fs : FileStore) (filename_pattern : Text) (r : Report) :
    Except ExportError (FileStore × Text) :=
  match fs get_template_path with
  | none => Except.error ExportError.noTemplate
  | some tpl =>
    match pyFormat [(str "NAME", safe_name r), (str "DATE", r.date.isoformat)]
        filename_pattern with
    | Except.error e => Except.error (ExportError.formatError e)
    | Except.ok filename =>
      let rendered := render_docx_template (contextOf r) tpl
      Except.ok (fun p => if p = filename then some rendered else fs p, filename)

/-- Example report record used to instantiate the theorems. -/
def exampleReport : Report :=
  { name := some (str "张三")
    date := { year := 2024, month := 5, day := 1 }
    summary := some (str "本周总结")
    plan := some (str "下周计划") }

/-- Report whose summary value contains the PLAN token, for the
double-substitution scenario. -/
def chainReport : Report :=
  { name := some (str "王五")
    date := { year := 2024, month := 5, day := 1 }
    summary := some (str "见" ++ placeholder (str "PLAN"))
    plan := some (str "下周计划") }

/-- A template whose single body paragraph is the NAME token. -/
def nameTemplate : Docx :=
  { paragraphs := [{ runs := [{ text := placeholder (str "NAME"), fmt := 5 }] }]
    tables := []
    sections := [] }

/-- A file store holding only the uploaded template. -/
def exampleStore : FileStore :=
  fun p => if p = get_template_path then some nameTemplate else none

/-- The default filename pattern of ExportConfig (src/main.py line 45). -/
def default_filename_pattern : Text :=
  fmtToken (str "DATE") ++ '_' :: (fmtToken (str "NAME") ++ str "_周报.docx")

/-- The keyword arguments passed to str.format by `export_report` for the
example report. -/
def kwExample : List (Text × Text) :=
  [(str "NAME", str "张三"), (str "DATE", str "2024-05-01")]

/-- A paragraph whose NAME token is split across three runs with distinct
formatting, as Word tends to produce. -/
def splitRunsParagraph : Paragraph :=
  { runs := [ { text := str "姓名：", fmt := 1 },
              { text := '{' :: '{' :: str "NA", fmt := 2 },
              { text := str "ME" ++ ['}', '}'] ++ str "！", fmt := 3 } ] }

/-- The same concatenated text as `splitRunsParagraph`, in a single run. -/
def singleRunParagraph : Paragraph :=
  { runs := [ { text := str "姓名：" ++ placeholder (str "NAME") ++ str "！", fmt := 9 } ] }

/-- A paragraph with two formatted runs and no placeholder token. -/
def plainParagraph : Paragraph :=
  { runs := [ { text := str "正文", fmt := 2 }, { text := str "无占位", fmt := 7 } ] }

/-- A document with body, table, header and footer content and no remaining
placeholder token anywhere. -/
def settledDoc : Docx :=
  { paragraphs := [ { runs := [ { text := str "张三", fmt := 1 } ] }, plainParagraph ]
    tables := [ [ [ [ { runs := [ { text := str "总结", fmt := 4 } ] } ] ] ] ]
    sections := [ { header := { paragraphs := [ plainParagraph ], tables := [] }
                    footer := { paragraphs := [], tables := [ [ [ [ plainParagraph ] ] ] ] } } ] }

/-- A report whose name column is NULL. -/
def noNameReport : Report :=
  { name := none
    date := { year := 2024, month := 5, day := 1 }
    summary := some (str "总结")
    plan := none }

/-- Decidable equality on results, so that concrete formatter outcomes can be
checked by evaluation. -/
instance exceptDecEq {ε α : Type} [DecidableEq ε] [DecidableEq α] :
    DecidableEq (Except ε α) := fun a b =>
  match a, b with
  | Except.error e, Except.error f =>
    if h : e = f then isTrue (by rw [h])
    else isFalse (by intro hh; injection hh with h2; exact h h2)
  | Except.ok x, Except.ok y =>
    if h : x = y then isTrue (by rw [h])
    else isFalse (by intro hh; injection hh with h2; exact h h2)
  | Except.error _, Except.ok _ => isFalse (fun hh => Except.noConfusion hh)
  | Except.ok _, Except.error _ => isFalse (fun hh => Except.noConfusion hh)

theorem replaceAllF_congr (pat rep : Text) :
    ∀ (f g : Nat) (s : Text), s.length ≤ f → s.length ≤ g →
      replaceAllF pat rep f s = replaceAllF pat rep g s := by
  intro f
  induction f with
  | zero =>
    intro g s hf _
    have hs : s = [] := List.eq_nil_of_length_eq_zero (Nat.le_zero.mp hf)
    subst hs
    simp [replaceAllF]
  | succ f ih =>
    intro g s hf hg
    match s with
    | [] => simp [replaceAllF]
    | c :: cs =>
      match g with
      | 0 => exact absurd hg (by simp)
      | g + 1 =>
        simp only [replaceAllF]
        by_cases h : pat ≠ [] ∧ List.isPrefixOf pat (c :: cs) = true
        · rw [if_pos h, if_pos h]
          have hlp : 0 < pat.length := List.length_pos.mpr h.1
          simp only [List.length_cons] at hf hg
          have hd : (List.drop pat.length (c :: cs)).length ≤ f := by
            simp only [List.length_drop, List.length_cons]; omega
          have hd2 : (List.drop pat.length (c :: cs)).length ≤ g := by
            simp only [List.length_drop, List.length_cons]; omega
          rw [ih g (List.drop pat.length (c :: cs)) hd hd2]
        · rw [if_neg h, if_neg h]
          simp only [List.length_cons] at hf hg
          rw [ih g cs (by omega) (by omega)]

theorem replaceAll_nil (pat rep : Text) : replaceAll pat rep [] = [] := rfl

theorem replaceAll_cons_pos (pat rep : Text) (c : Char) (cs : Text)
    (h : pat ≠ [] ∧ List.isPrefixOf pat (c :: cs) = true) :
    replaceAll pat rep (c :: cs) =
      rep ++ replaceAll pat rep (List.drop pat.length (c :: cs)) := by
  have hlp : 0 < pat.length := List.length_pos.mpr h.1
  simp only [replaceAll, List.length_cons]
  rw [show replaceAllF pat rep (cs.length + 1) (c :: cs) =
      rep ++ replaceAllF pat rep cs.length (List.drop pat.length (c :: cs)) by
    simp only [replaceAllF]; rw [if_pos h]]
  congr 1
  apply replaceAllF_congr
  · simp only [List.length_drop, List.length_cons]; omega
  · exact le_rfl

theorem replaceAll_cons_neg (pat rep : Text) (c : Char) (cs : Text)
    (h : ¬(pat ≠ [] ∧ List.isPrefixOf pat (c :: cs) = true)) :
    replaceAll pat rep (c :: cs) = c :: replaceAll pat rep cs := by
  simp only [replaceAll, List.length_cons]
  rw [show replaceAllF pat rep (cs.length + 1) (c :: cs) =
      c :: replaceAllF pat rep cs.length cs by
    simp only [replaceAllF]; rw [if_neg h]]

theorem splitChunksF_congr (pat : Text) :
    ∀ (f g : Nat) (s : Text), s.length ≤ f → s.length ≤ g →
      splitChunksF pat f s = splitChunksF pat g s := by
  intro f
  induction f with
  | zero =>
    intro g s hf _
    have hs : s = [] := List.eq_nil_of_length_eq_zero (Nat.le_zero.mp hf)
    subst hs
    simp [splitChunksF]
  | succ f ih =>
    intro g s hf hg
    match s with
    | [] => simp [splitChunksF]
    | c :: cs =>
      match g with
      | 0 => exact absurd hg (by simp)
      | g + 1 =>
        simp only [splitChunksF]
        by_cases h : pat ≠ [] ∧ List.isPrefixOf pat (c :: cs) = true
        · rw [if_pos h, if_pos h]
          have hlp : 0 < pat.length := List.length_pos.mpr h.1
          simp only [List.length_cons] at hf hg
          have hd : (List.drop pat.length (c :: cs)).length ≤ f := by
            simp only [List.length_drop, List.length_cons]; omega
          have hd2 : (List.drop pat.length (c :: cs)).length ≤ g := by
            simp only [List.length_drop, List.length_cons]; omega
          rw [ih g (List.drop pat.length (c :: cs)) hd hd2]
        · rw [if_neg h, if_neg h]
          simp only [List.length_cons] at hf hg
          rw [ih g cs (by omega) (by omega)]

theorem splitChunks_nil (pat : Text) : splitChunks pat [] = [[]] := rfl

theorem splitChunks_cons_pos (pat : Text) (c : Char) (cs : Text)
    (h : pat ≠ [] ∧ List.isPrefixOf pat (c :: cs) = true) :
    splitChunks pat (c :: cs) =
      [] :: splitChunks pat (List.drop pat.length (c :: cs)) := by
  have hlp : 0 < pat.length := List.length_pos.mpr h.1
  simp only [splitChunks, List.length_cons]
  rw [show splitChunksF pat (cs.length + 1) (c :: cs) =
      [] :: splitChunksF pat cs.length (List.drop pat.length (c :: cs)) by
    simp only [splitChunksF]; rw [if_pos h]]
  congr 1
  apply splitChunksF_congr
  · simp only [List.length_drop, List.length_cons]; omega
  · exact le_rfl

theorem splitChunks_cons_neg (pat : Text) (c : Char) (cs t : Text) (ts : List Text)
    (h : ¬(pat ≠ [] ∧ List.isPrefixOf pat (c :: cs) = true))
    (hsp : splitChunks pat cs = t :: ts) :
    splitChunks pat (c :: cs) = (c :: t) :: ts := by
  simp only [splitChunks, List.length_cons]
  rw [show splitChunksF pat (cs.length + 1) (c :: cs) =
      match splitChunksF pat cs.length cs with
      | [] => [[c]]
      | t :: ts => (c :: t) :: ts by
    simp only [splitChunksF]; rw [if_neg h]]
  rw [show splitChunksF pat cs.length cs = t :: ts from hsp]

theorem splitChunks_shape (pat : Text) :
    ∀ s : Text, ∃ t ts, splitChunks pat s = t :: ts ∧ List.isPrefixOf t s = true := by
  have main : ∀ n (s : Text), s.length ≤ n →
      ∃ t ts, splitChunks pat s = t :: ts ∧ List.isPrefixOf t s = true := by
    intro n
    induction n with
    | zero =>
      intro s hf
      have hs : s = [] := List.eq_nil_of_length_eq_zero (Nat.le_zero.mp hf)
      subst hs
      exact ⟨[], [], rfl, by simp [List.isPrefixOf]⟩
    | succ n ih =>
      intro s hs
      match s with
      | [] => exact ⟨[], [], rfl, by simp [List.isPrefixOf]⟩
      | c :: cs =>
        by_cases h : pat ≠ [] ∧ List.isPrefixOf pat (c :: cs) = true
        · exact ⟨[], splitChunks pat (List.drop pat.length (c :: cs)),
            splitChunks_cons_pos pat c cs h, by simp [List.isPrefixOf]⟩
        · simp only [List.length_cons] at hs
          obtain ⟨t, ts, hsp, hpre⟩ := ih cs (by omega)
          exact ⟨c :: t, ts, splitChunks_cons_neg pat c cs t ts h hsp,
            by simp [List.isPrefixOf, hpre]⟩
  exact fun s => main s.length s le_rfl

theorem replaceAll_eq_joinWith (pat rep : Text) :
    ∀ s : Text, replaceAll pat rep s = joinWith rep (splitChunks pat s) := by
  have main : ∀ n (s : Text), s.length ≤ n →
      replaceAll pat rep s = joinWith rep (splitChunks pat s) := by
    intro n
    induction n with
    | zero =>
      intro s hf
      have hs : s = [] := List.eq_nil_of_length_eq_zero (Nat.le_zero.mp hf)
      subst hs
      simp [replaceAll_nil, splitChunks_nil, joinWith]
    | succ n ih =>
      intro s hs
      match s with
      | [] => simp [replaceAll_nil, splitChunks_nil, joinWith]
      | c :: cs =>
        simp only [List.length_cons] at hs
        by_cases h : pat ≠ [] ∧ List.isPrefixOf pat (c :: cs) = true
        · have hlp : 0 < pat.length := List.length_pos.mpr h.1
          rw [replaceAll_cons_pos pat rep c cs h, splitChunks_cons_pos pat c cs h]
          have hb : (List.drop pat.length (c :: cs)).length ≤ n := by
            simp only [List.length_drop, List.length_cons]; omega
          rw [ih (List.drop pat.length (c :: cs)) hb]
          obtain ⟨t, ts, hsp, -⟩ := splitChunks_shape pat (List.drop pat.length (c :: cs))
          rw [hsp]
          simp [joinWith]
        · obtain ⟨t, ts, hsp, -⟩ := splitChunks_shape pat cs
          rw [replaceAll_cons_neg pat rep c cs h, splitChunks_cons_neg pat c cs t ts h hsp,
            ih cs (by omega), hsp]
          cases ts with
          | nil => simp [joinWith]
          | cons u us => simp [joinWith]
  exact fun s => main s.length s le_rfl

theorem isPrefixOf_trans (a : Text) : ∀ b c : Text,
    List.isPrefixOf a b = true → List.isPrefixOf b c = true →
      List.isPrefixOf a c = true := by
  induction a with
  | nil => intro b c _ _; simp [List.isPrefixOf]
  | cons x xs ih =>
    intro b c h1 h2
    match b with
    | [] => simp [List.isPrefixOf] at h1
    | y :: ys =>
      match c with
      | [] => simp [List.isPrefixOf] at h2
      | z :: zs =>
        simp only [List.isPrefixOf, Bool.and_eq_true, beq_iff_eq] at h1 h2 ⊢
        exact ⟨h1.1.trans h2.1, ih ys zs h1.2 h2.2⟩

theorem splitChunks_chunk_no_occ (pat : Text) (hpat : pat ≠ []) :
    ∀ s : Text, ∀ x ∈ splitChunks pat s, containsSub pat x = false := by
  have base : containsSub pat [] = false := by
    match pat, hpat with
    | c :: cs, _ => simp [containsSub, List.isPrefixOf]
  have main : ∀ n (s : Text), s.length ≤ n →
      ∀ x ∈ splitChunks pat s, containsSub pat x = false := by
    intro n
    induction n with
    | zero =>
      intro s hf x hx
      have hs : s = [] := List.eq_nil_of_length_eq_zero (Nat.le_zero.mp hf)
      subst hs
      rw [splitChunks_nil] at hx
      simp only [List.mem_singleton] at hx
      subst hx
      exact base
    | succ n ih =>
      intro s hs x hx
      match s with
      | [] =>
        rw [splitChunks_nil] at hx
        simp only [List.mem_singleton] at hx
        subst hx
        exact base
      | c :: cs =>
        simp only [List.length_cons] at hs
        by_cases h : pat ≠ [] ∧ List.isPrefixOf pat (c :: cs) = true
        · have hlp : 0 < pat.length := List.length_pos.mpr h.1
          rw [splitChunks_cons_pos pat c cs h] at hx
          rcases List.mem_cons.mp hx with hx | hx
          · subst hx; exact base
          · exact ih (List.drop pat.length (c :: cs))
              (by simp only [List.length_drop, List.length_cons]; omega) x hx
        · obtain ⟨t, ts, hsp, hpre⟩ := splitChunks_shape pat cs
          rw [splitChunks_cons_neg pat c cs t ts h hsp] at hx
          rcases List.mem_cons.mp hx with hx | hx
          · subst hx
            have hnp : List.isPrefixOf pat (c :: cs) = false := by
              cases hb : List.isPrefixOf pat (c :: cs) with
              | false => rfl
              | true => exact absurd ⟨hpat, hb⟩ h
            have hct : List.isPrefixOf (c :: t) (c :: cs) = true := by
              simp [List.isPrefixOf, hpre]
            have h1 : List.isPrefixOf pat (c :: t) = false := by
              cases hb : List.isPrefixOf pat (c :: t) with
              | false => rfl
              | true =>
                have := isPrefixOf_trans pat (c :: t) (c :: cs) hb hct
                rw [hnp] at this
                exact absurd this (by simp)
            have h2 : containsSub pat t = false :=
              ih cs (by omega) t (by rw [hsp]; exact List.mem_cons_self t ts)
            simp [containsSub, h1, h2]
          · exact ih cs (by omega) x (by rw [hsp]; exact List.mem_cons_of_mem t hx)
  exact fun s => main s.length s le_rfl

theorem placeholder_ne_nil (k : Text) : placeholder k ≠ [] := by
  simp [placeholder]

theorem containsSub_nil_eq_false (pat : Text) (h : pat ≠ []) :
    containsSub pat [] = false := by
  match pat, h with
  | c :: cs, _ => simp [containsSub, List.isPrefixOf]

theorem applyContext_nil (ctx : Context) : applyContext ctx [] = [] := by
  induction ctx with
  | nil => rfl
  | cons kv rest ih =>
    obtain ⟨k, v⟩ := kv
    simp [applyContext, containsSub_nil_eq_false (placeholder k) (placeholder_ne_nil k), ih]

theorem applyContext_no_occ (ctx : Context) (t : Text)
    (h : ∀ kv ∈ ctx, containsSub (placeholder kv.1) t = false) :
    applyContext ctx t = t := by
  induction ctx with
  | nil => rfl
  | cons kv rest ih =>
    obtain ⟨k, v⟩ := kv
    have hk := h (k, v) (List.mem_cons_self (k, v) rest)
    simp only [applyContext, hk]
    rw [if_neg (by simp)]
    exact ih (fun kv hkv => h kv (List.mem_cons_of_mem (k, v) hkv))

theorem text_single_run (t : Text) (m : Nat) :
    Paragraph.text { runs := [{ text := t, fmt := m }] } = t := by
  simp [Paragraph.text]

theorem replace_in_paragraph_text (ctx : Context) (p : Paragraph) :
    (replace_in_paragraph ctx p).text = applyContext ctx p.text := by
  simp only [replace_in_paragraph]
  split_ifs with h0 h1
  · rw [h0, applyContext_nil]
  · exact text_single_run (applyContext ctx p.text) 0
  · exact (not_ne_iff.mp h1).symm

theorem replace_in_paragraph_id_of_fix (ctx : Context) (p : Paragraph)
    (h : applyContext ctx p.text = p.text) : replace_in_paragraph ctx p = p := by
  simp only [replace_in_paragraph]
  split_ifs with h0 h1
  · rfl
  · exact absurd h h1
  · rfl

theorem replace_in_paragraph_id_of_no_occ (ctx : Context) (p : Paragraph)
    (h : ∀ kv ∈ ctx, containsSub (placeholder kv.1) p.text = false) :
    replace_in_paragraph ctx p = p :=
  replace_in_paragraph_id_of_fix ctx p (applyContext_no_occ ctx p.text h)

theorem replace_in_paragraph_changed (ctx : Context) (p : Paragraph)
    (h : replace_in_paragraph ctx p ≠ p) :
    replace_in_paragraph ctx p =
        { runs := [{ text := applyContext ctx p.text, fmt := 0 }] }
      ∧ applyContext ctx p.text ≠ p.text := by
  by_cases h1 : applyContext ctx p.text = p.text
  · exact absurd (replace_in_paragraph_id_of_fix ctx p h1) h
  · refine ⟨?_, h1⟩
    simp only [replace_in_paragraph]
    split_ifs with h0
    · rw [h0, applyContext_nil] at h1
      exact absurd rfl h1
    · rfl

theorem flatten_map_map {α β : Type} (f : α → β) :
    ∀ l : List (List α), (l.map (List.map f)).flatten = l.flatten.map f := by
  intro l
  induction l with
  | nil => rfl
  | cons x xs ih =>
    simp only [List.map_cons, List.flatten_cons, List.map_append, ih]

theorem tableParagraphs_render (ctx : Context) (t : Table) :
    tableParagraphs (renderTable ctx t) =
      (tableParagraphs t).map (replace_in_paragraph ctx) := by
  induction t with
  | nil => rfl
  | cons row rows ih =>
    simp only [renderTable, tableParagraphs, List.map_cons, List.flatten_cons,
      List.map_append] at ih ⊢
    exact congrArg₂ (· ++ ·) (flatten_map_map (replace_in_paragraph ctx) row) ih

theorem headerFooterParagraphs_render (ctx : Context) (h : HeaderFooter) :
    headerFooterParagraphs (renderHeaderFooter ctx h) =
      (headerFooterParagraphs h).map (replace_in_paragraph ctx) := by
  simp only [headerFooterParagraphs, renderHeaderFooter, List.map_append]
  refine congrArg₂ (· ++ ·) rfl ?_
  rw [← flatten_map_map (replace_in_paragraph ctx) (h.tables.map tableParagraphs),
    List.map_map, List.map_map]
  refine congrArg List.flatten (List.map_congr_left ?_)
  intro tb _
  simp only [Function.comp]
  exact tableParagraphs_render ctx tb

theorem allParagraphs_render (ctx : Context) (doc : Docx) :
    allParagraphs (render_docx_template ctx doc) =
      (allParagraphs doc).map (replace_in_paragraph ctx) := by
  simp only [allParagraphs, render_docx_template, List.map_append]
  refine congrArg₂ (· ++ ·) (congrArg₂ (· ++ ·) rfl ?_) ?_
  · rw [← flatten_map_map (replace_in_paragraph ctx) (doc.tables.map tableParagraphs),
      List.map_map, List.map_map]
    refine congrArg List.flatten (List.map_congr_left ?_)
    intro tb _
    simp only [Function.comp]
    exact tableParagraphs_render ctx tb
  · rw [← flatten_map_map (replace_in_paragraph ctx)
        (doc.sections.map (fun s =>
          headerFooterParagraphs s.header ++ headerFooterParagraphs s.footer)),
      List.map_map, List.map_map]
    refine congrArg List.flatten (List.map_congr_left ?_)
    intro s _
    simp only [Function.comp, List.map_append]
    exact congrArg₂ (· ++ ·) (headerFooterParagraphs_render ctx s.header)
      (headerFooterParagraphs_render ctx s.footer)

theorem map_id_of_mem {α : Type} (l : List α) (f : α → α)
    (h : ∀ a ∈ l, f a = a) : l.map f = l := by
  induction l with
  | nil => rfl
  | cons x xs ih =>
    simp only [List.map_cons]
    rw [h x (List.mem_cons_self x xs), ih (fun a ha => h a (List.mem_cons_of_mem x ha))]

theorem mem_tableParagraphs {p : Paragraph} {cell : Cell} {row : Row} {t : Table}
    (hp : p ∈ cell) (hc : cell ∈ row) (hr : row ∈ t) : p ∈ tableParagraphs t := by
  simp only [tableParagraphs, List.mem_flatten, List.mem_map]
  exact ⟨row.flatten, ⟨row, hr, rfl⟩, List.mem_flatten.mpr ⟨cell, hc, hp⟩⟩

theorem renderTable_id (ctx : Context) (t : Table)
    (h : ∀ p ∈ tableParagraphs t, replace_in_paragraph ctx p = p) :
    renderTable ctx t = t := by
  unfold renderTable
  apply map_id_of_mem
  intro row hr
  apply map_id_of_mem
  intro cell hc
  apply map_id_of_mem
  intro p hp
  exact h p (mem_tableParagraphs hp hc hr)

theorem renderHeaderFooter_id (ctx : Context) (h : HeaderFooter)
    (hh : ∀ p ∈ headerFooterParagraphs h, replace_in_paragraph ctx p = p) :
    renderHeaderFooter ctx h = h := by
  obtain ⟨paras, tables⟩ := h
  simp only [renderHeaderFooter, HeaderFooter.mk.injEq]
  constructor
  · apply map_id_of_mem
    intro p hp
    exact hh p (List.mem_append_left _ hp)
  · apply map_id_of_mem
    intro tb htb
    apply renderTable_id
    intro p hp
    refine hh p (List.mem_append_right _ ?_)
    exact List.mem_flatten.mpr ⟨tableParagraphs tb, List.mem_map.mpr ⟨tb, htb, rfl⟩, hp⟩

theorem render_id_of_fixpoint (ctx : Context) (doc : Docx)
    (h : ∀ p ∈ allParagraphs doc, replace_in_paragraph ctx p = p) :
    render_docx_template ctx doc = doc := by
  obtain ⟨paras, tables, sections⟩ := doc
  simp only [render_docx_template, Docx.mk.injEq]
  refine ⟨?_, ?_, ?_⟩
  · apply map_id_of_mem
    intro p hp
    exact h p (List.mem_append_left _ (List.mem_append_left _ hp))
  · apply map_id_of_mem
    intro tb htb
    apply renderTable_id
    intro p hp
    refine h p (List.mem_append_left _ (List.mem_append_right _ ?_))
    exact List.mem_flatten.mpr ⟨tableParagraphs tb, List.mem_map.mpr ⟨tb, htb, rfl⟩, hp⟩
  · apply map_id_of_mem
    intro s hs
    have hsec : ∀ p, p ∈ headerFooterParagraphs s.header ++ headerFooterParagraphs s.footer →
        replace_in_paragraph ctx p = p := by
      intro p hp
      refine h p (List.mem_append_right _ ?_)
      exact List.mem_flatten.mpr ⟨_, List.mem_map.mpr ⟨s, hs, rfl⟩, hp⟩
    obtain ⟨hd, ft⟩ := s
    simp only [DocSection.mk.injEq]
    constructor
    · exact renderHeaderFooter_id ctx hd (fun p hp => hsec p (List.mem_append_left _ hp))
    · exact renderHeaderFooter_id ctx ft (fun p hp => hsec p (List.mem_append_right _ hp))

/-- Claim C1: in every traversed region every paragraph is substituted on its
full concatenated run text, so the result depends only on that text and not
on how it is split into runs; the rendered tree maps every paragraph of every
region (body, body tables, header/footer paragraphs and tables) through
`replace_in_paragraph`; and each per-key replacement step decomposes the text
into chunks free of the token, interleaved with the value — every occurrence
of a recognized token that stands intact in the concatenated paragraph text
is consumed and replaced by the value, none is skipped. -/
theorem c1_intact_tokens_always_replaced (ctx : Context) :
    (∀ p : Paragraph, (replace_in_paragraph ctx p).text = applyContext ctx p.text)
    ∧ (∀ p q : Paragraph, p.text = q.text →
        (replace_in_paragraph ctx p).text = (replace_in_paragraph ctx q).text)
    ∧ (∀ pat rep s : Text, pat ≠ [] →
        replaceAll pat rep s = joinWith rep (splitChunks pat s)
          ∧ ∀ x ∈ splitChunks pat s, containsSub pat x = false)
    ∧ (∀ doc : Docx, allParagraphs (render_docx_template ctx doc) =
        (allParagraphs doc).map (replace_in_paragraph ctx)) := by
  refine ⟨replace_in_paragraph_text ctx, ?_, ?_, allParagraphs_render ctx⟩
  · intro p q hpq
    rw [replace_in_paragraph_text ctx p, replace_in_paragraph_text ctx q, hpq]
  · intro pat rep s hpat
    exact ⟨replaceAll_eq_joinWith pat rep s, splitChunks_chunk_no_occ pat hpat s⟩

theorem c1_witness :
    (replace_in_paragraph (contextOf exampleReport) splitRunsParagraph).text =
        (replace_in_paragraph (contextOf exampleReport) singleRunParagraph).text
      ∧ replaceAll (placeholder (str "NAME")) (str "张三") singleRunParagraph.text =
          joinWith (str "张三") (splitChunks (placeholder (str "NAME")) singleRunParagraph.text)
      ∧ ∀ x ∈ splitChunks (placeholder (str "NAME")) singleRunParagraph.text,
          containsSub (placeholder (str "NAME")) x = false := by
  have h := c1_intact_tokens_always_replaced (contextOf exampleReport)
  exact ⟨h.2.1 splitRunsParagraph singleRunParagraph (by decide),
    (h.2.2.1 (placeholder (str "NAME")) (str "张三") singleRunParagraph.text (by decide)).1,
    (h.2.2.1 (placeholder (str "NAME")) (str "张三") singleRunParagraph.text (by decide)).2⟩

/-- Claim C2: a paragraph whose concatenated text is empty, or in which no
placeholder token of the context occurs, is returned completely unchanged
(runs and run formatting preserved); more generally any paragraph whose text
the substitution leaves unchanged is untouched, and only a paragraph whose
text actually changes is written back, as a single default-formatted run. -/
theorem c2_no_occurrence_untouched (ctx : Context) (p : Paragraph) :
    (p.text = [] → replace_in_paragraph ctx p = p)
    ∧ ((∀ kv ∈ ctx, containsSub (placeholder kv.1) p.text = false) →
        replace_in_paragraph ctx p = p)
    ∧ (applyContext ctx p.text = p.text → replace_in_paragraph ctx p = p)
    ∧ (replace_in_paragraph ctx p ≠ p →
        replace_in_paragraph ctx p =
          { runs := [{ text := applyContext ctx p.text, fmt := 0 }] }
        ∧ applyContext ctx p.text ≠ p.text) := by
  refine ⟨?_, replace_in_paragraph_id_of_no_occ ctx p,
    replace_in_paragraph_id_of_fix ctx p, replace_in_paragraph_changed ctx p⟩
  intro h0
  exact replace_in_paragraph_id_of_fix ctx p (by rw [h0, applyContext_nil])

theorem c2_witness :
    replace_in_paragraph (contextOf exampleReport) plainParagraph = plainParagraph
    ∧ replace_in_paragraph (contextOf exampleReport) { runs := [] } = { runs := [] } :=
  ⟨(c2_no_occurrence_untouched (contextOf exampleReport) plainParagraph).2.1 (by decide),
    (c2_no_occurrence_untouched (contextOf exampleReport) { runs := [] }).1 (by decide)⟩

/-- Claim C3: the context is built in the fixed insertion order NAME, DATE,
SUMMARY, PLAN, and replacement is iterative per-key substitution over the
evolving text: a SUMMARY value containing the PLAN token is itself
re-substituted when PLAN is processed later (double substitution). -/
theorem c3_sequential_double_substitution :
    contextOf chainReport =
        [ (str "NAME", str "王五"), (str "DATE", str "2024-05-01"),
          (str "SUMMARY", str "见" ++ placeholder (str "PLAN")),
          (str "PLAN", str "下周计划") ]
    ∧ (replace_in_paragraph (contextOf chainReport)
          { runs := [{ text := placeholder (str "SUMMARY"), fmt := 1 }] }).text =
        str "见下周计划" := by
  exact ⟨by decide, by decide⟩

/-- Claim C4: when the template byte stream is not parseable as a document
package, rendering fails with the load error propagated to the caller and
nothing is written to the output destination; only when parsing and the full
substitution pass succeed is the single rendered document written. -/
theorem c4_load_error_propagates_no_output :
    (∀ (decode : List Nat → Option Docx) (ctx : Context) (b : List Nat),
        decode b = none →
          render_from_bytes decode ctx b =
            (Except.error TemplateError.templateLoadError, []))
    ∧ (∀ (decode : List Nat → Option Docx) (ctx : Context) (b : List Nat) (doc : Docx),
        decode b = some doc →
          render_from_bytes decode ctx b =
            (Except.ok (render_docx_template ctx doc), [render_docx_template ctx doc])) := by
  constructor
  · intro decode ctx b h
    simp [render_from_bytes, h]
  · intro decode ctx b doc h
    simp [render_from_bytes, h]

theorem c4_witness :
    render_from_bytes (fun _ => none) [] [0] =
      (Except.error TemplateError.templateLoadError, []) :=
  c4_load_error_propagates_no_output.1 (fun _ => none) [] [0] rfl

/-- Claim C7: rendering is idempotent on settled output — a document in which
no placeholder token of the context occurs in any paragraph of any region is
returned entirely unchanged by another render with the same context. -/
theorem c7_idempotent_on_settled_output (ctx : Context) (doc : Docx)
    (h : ∀ p ∈ allParagraphs doc, ∀ kv ∈ ctx,
        containsSub (placeholder kv.1) p.text = false) :
    render_docx_template ctx doc = doc :=
  render_id_of_fixpoint ctx doc
    (fun p hp => replace_in_paragraph_id_of_no_occ ctx p (h p hp))

theorem c7_witness :
    render_docx_template (contextOf exampleReport) settledDoc = settledDoc :=
  c7_idempotent_on_settled_output (contextOf exampleReport) settledDoc (by decide)

/-- Claim C8: rendering is deterministic — the pipeline from template bytes
and context to result and writes is a pure function, so two invocations on
identical inputs produce identical outputs. -/
theorem c8_deterministic (decode : List Nat → Option Docx) (ctx : Context)
    (b : List Nat) (o₁ o₂ : Except TemplateError Docx × List Docx)
    (h1 : o₁ = render_from_bytes decode ctx b)
    (h2 : o₂ = render_from_bytes decode ctx b) : o₁ = o₂ :=
  h1.trans h2.symm

theorem c8_witness :
    render_from_bytes (fun _ => some nameTemplate) (contextOf exampleReport) [7] =
      render_from_bytes (fun _ => some nameTemplate) (contextOf exampleReport) [7] :=
  c8_deterministic (fun _ => some nameTemplate) (contextOf exampleReport) [7] _ _ rfl rfl

/-- Claim C10: for a report whose name is NULL or empty, the two substitution
mechanisms use different fallbacks — the document context maps NAME to the
empty string while the filename formatting substitutes the literal fallback
name, and the two values differ. -/
theorem c10_divergent_name_fallbacks (r : Report)
    (h : r.name = none ∨ r.name = some []) :
    (contextOf r).head? = some (str "NAME", ([] : Text))
    ∧ safe_name r = str "未命名"
    ∧ safe_name r ≠ pyOrStr r.name [] := by
  have hname : pyOrStr r.name [] = [] := by
    rcases h with h | h <;> simp [pyOrStr, h]
  have hsafe : safe_name r = str "未命名" := by
    rcases h with h | h <;> simp [safe_name, pyOrStr, h]
  refine ⟨?_, hsafe, ?_⟩
  · simp [contextOf, hname]
  · rw [hsafe, hname]
    decide

theorem c10_witness :
    (contextOf noNameReport).head? = some (str "NAME", ([] : Text))
    ∧ safe_name noNameReport = str "未命名"
    ∧ safe_name noNameReport ≠ pyOrStr noNameReport.name [] :=
  c10_divergent_name_fallbacks noNameReport (Or.inl rfl)

/-- Claim C5 counterexample: the claim fails as stated — with the filename
pattern configured to the template file name itself (a token-free pattern the
settings page accepts), export saves the rendered output onto the template
path, mutating the stored template copy. -/
theorem c5_counterexample :
    ∃ fs' fn, export_report exampleStore get_template_path exampleReport =
        Except.ok (fs', fn)
      ∧ fs' get_template_path ≠ exampleStore get_template_path := by
  refine ⟨_, _, rfl, ?_⟩
  decide

/-- Claim C5 amended: for every export whose computed output filename differs
from the template file name, the stored template copy is unchanged after the
export and the output slot holds a fresh document instance, the rendering of
the template with the report context. -/
theorem c5_amended_template_preserved (fs : FileStore) (pattern : Text) (r : Report)
    (tpl : Docx) (fs' : FileStore) (fn : Text)
    (htpl : fs get_template_path = some tpl)
    (hex : export_report fs pattern r = Except.ok (fs', fn))
    (hne : fn ≠ get_template_path) :
    fs' get_template_path = some tpl
    ∧ fs' fn = some (render_docx_template (contextOf r) tpl) := by
  unfold export_report at hex
  rw [htpl] at hex
  cases hfmt : pyFormat [(str "NAME", safe_name r), (str "DATE", r.date.isoformat)] pattern with
  | error e =>
    rw [hfmt] at hex
    exact absurd hex (by simp)
  | ok filename =>
    rw [hfmt] at hex
    simp only [Except.ok.injEq, Prod.mk.injEq] at hex
    obtain ⟨hfs, hfn⟩ := hex
    subst hfn
    have hpt : ∀ p, fs' p =
        if p = filename then some (render_docx_template (contextOf r) tpl) else fs p := by
      intro p
      rw [← hfs]
    constructor
    · rw [hpt get_template_path, if_neg (fun hh => hne hh.symm)]
      exact htpl
    · rw [hpt filename, if_pos rfl]

theorem c5_amended_witness :
    ∃ fs', export_report exampleStore default_filename_pattern exampleReport =
        Except.ok (fs', str "2024-05-01_张三_周报.docx")
      ∧ fs' get_template_path = some nameTemplate
      ∧ fs' (str "2024-05-01_张三_周报.docx") =
          some (render_docx_template (contextOf exampleReport) nameTemplate) := by
  refine ⟨_, rfl, ?_⟩
  exact c5_amended_template_preserved exampleStore default_filename_pattern exampleReport
    nameTemplate _ (str "2024-05-01_张三_周报.docx") (by decide) rfl (by decide)

/-- Claim C6 counterexample: the filename formatter is not escape-free exact
replacement — Python str.format treats doubled braces as escapes, so the
pattern made of the NAME field wrapped in one extra brace pair yields the
literal token text, while the one-pass no-escape replacement described by the
claim substitutes the value inside the braces; the two outputs differ. -/
theorem c6_counterexample :
    pyFormat kwExample (placeholder (str "NAME")) = Except.ok (fmtToken (str "NAME"))
    ∧ specOnePassFormat (str "张三") (str "2024-05-01") (placeholder (str "NAME")) =
        '{' :: (str "张三" ++ ['}'])
    ∧ (Except.ok (fmtToken (str "NAME")) : Except FmtError Text) ≠
        Except.ok ('{' :: (str "张三" ++ ['}'])) :=
  ⟨by decide, by decide, by decide⟩

/-- Claim C6 amended: filename formatting is Python str.format field
substitution: the NAME and DATE fields are substituted case-sensitively in a
single pass, substituted values are not rescanned for tokens, doubled braces
are escapes producing literal braces, and the concrete scenario of the
default pattern with the example report holds. -/
theorem c6_amended_single_pass_format :
    pyFormat kwExample default_filename_pattern =
        Except.ok (str "2024-05-01_张三_周报.docx")
    ∧ pyFormat [(str "NAME", fmtToken (str "DATE")), (str "DATE", str "X")]
        (fmtToken (str "NAME")) = Except.ok (fmtToken (str "DATE"))
    ∧ pyFormat kwExample (fmtToken (str "name")) =
        Except.error (FmtError.keyError (str "name"))
    ∧ pyFormat kwExample (placeholder (str "NAME")) = Except.ok (fmtToken (str "NAME")) :=
  ⟨by decide, by decide, by decide, by decide⟩

theorem pyFormatF_ok_fields (kwargs : List (Text × Text)) :
    ∀ (fuel : Nat) (pat out : Text),
      pyFormatF kwargs fuel pat = Except.ok out →
      ∃ flds, patternFieldsF fuel pat = some flds
        ∧ ∀ f ∈ flds, isDigitsText f = false ∧ ∃ v, lookupKw kwargs f = some v := by
  intro fuel
  induction fuel with
  | zero =>
    intro pat out h
    match pat with
    | [] => exact ⟨[], rfl, fun f hf => absurd hf (List.not_mem_nil f)⟩
    | c :: rest => exact absurd h (by simp [pyFormatF])
  | succ fuel ih =>
    intro pat out h
    match pat with
    | [] => exact ⟨[], rfl, fun f hf => absurd hf (List.not_mem_nil f)⟩
    | c :: rest =>
      rcases rest with _ | ⟨d, rest1⟩
      · by_cases hc : c = '{'
        · subst hc
          simp only [pyFormatF, if_true] at h
          exact absurd h (by simp)
        · by_cases hc2 : c = '}'
          · subst hc2
            simp only [pyFormatF, if_neg hc, if_true] at h
            exact absurd h (by simp)
          · simp only [pyFormatF, if_neg hc, if_neg hc2] at h
            refine ⟨[], ?_, fun f hf => absurd hf (List.not_mem_nil f)⟩
            simp [patternFieldsF, if_neg hc, if_neg hc2]
      · by_cases hc : c = '{'
        · subst hc
          by_cases hd : d = '{'
          · subst hd
            simp only [pyFormatF, if_true] at h
            cases hrec : pyFormatF kwargs fuel rest1 with
            | error e => rw [hrec] at h; exact absurd h (by simp [Except.map])
            | ok t =>
              obtain ⟨flds, hf, hall⟩ := ih rest1 t hrec
              refine ⟨flds, ?_, hall⟩
              simpa [patternFieldsF, if_true] using hf
          · simp only [pyFormatF, if_true, if_neg hd] at h
            cases hdw : List.dropWhile (fun x => x ≠ '}') (d :: rest1) with
            | nil =>
              rw [hdw] at h
              exact absurd h (by simp)
            | cons w rest2 =>
              rw [hdw] at h
              simp only [] at h
              by_cases hdig :
                  isDigitsText (List.takeWhile (fun x => x ≠ '}') (d :: rest1)) = true
              · rw [if_pos hdig] at h
                exact absurd h (by simp)
              · rw [if_neg hdig] at h
                cases hlk : lookupKw kwargs (List.takeWhile (fun x => x ≠ '}') (d :: rest1)) with
                | none =>
                  rw [hlk] at h
                  exact absurd h (by simp)
                | some v =>
                  rw [hlk] at h
                  simp only [] at h
                  cases hrec : pyFormatF kwargs fuel rest2 with
                  | error e => rw [hrec] at h; exact absurd h (by simp [Except.map])
                  | ok t =>
                    obtain ⟨flds, hf, hall⟩ := ih rest2 t hrec
                    refine ⟨List.takeWhile (fun x => x ≠ '}') (d :: rest1) :: flds, ?_, ?_⟩
                    · simp only [patternFieldsF, if_true, if_neg hd, hdw, hf, Option.map]
                    · intro f hfm
                      rcases List.mem_cons.mp hfm with hfe | hfe
                      · subst hfe
                        exact ⟨by simpa using hdig, v, hlk⟩
                      · exact hall f hfe
        · by_cases hc2 : c = '}'
          · subst hc2
            by_cases hd : d = '}'
            · subst hd
              simp only [pyFormatF, if_neg hc, if_true] at h
              cases hrec : pyFormatF kwargs fuel rest1 with
              | error e => rw [hrec] at h; exact absurd h (by simp [Except.map])
              | ok t =>
                obtain ⟨flds, hf, hall⟩ := ih rest1 t hrec
                refine ⟨flds, ?_, hall⟩
                simpa [patternFieldsF, if_neg hc, if_true] using hf
            · simp only [pyFormatF, if_neg hc, if_true, if_neg hd] at h
              exact absurd h (by simp)
          · simp only [pyFormatF, if_neg hc, if_neg hc2] at h
            cases hrec : pyFormatF kwargs fuel (d :: rest1) with
            | error e => rw [hrec] at h; exact absurd h (by simp [Except.map])
            | ok t =>
              obtain ⟨flds, hf, hall⟩ := ih (d :: rest1) t hrec
              refine ⟨flds, ?_, hall⟩
              simpa [patternFieldsF, if_neg hc, if_neg hc2] using hf

/-- Claim C9: the filename formatter never passes an unknown replacement
field through as literal text — whenever formatting succeeds with the NAME
and DATE keyword arguments, every replacement field of the pattern is NAME or
DATE; a pattern with any other field raises KeyError and a positional field
raises IndexError. -/
theorem c9_unknown_tokens_rejected :
    (∀ nv dv pat out : Text,
        pyFormat [(str "NAME", nv), (str "DATE", dv)] pat = Except.ok out →
        ∃ flds, patternFields pat = some flds
          ∧ ∀ f ∈ flds, f = str "NAME" ∨ f = str "DATE")
    ∧ pyFormat kwExample (fmtToken (str "FOO")) =
        Except.error (FmtError.keyError (str "FOO"))
    ∧ pyFormat kwExample (fmtToken []) = Except.error FmtError.indexError := by
  refine ⟨?_, by decide, by decide⟩
  intro nv dv pat out h
  obtain ⟨flds, hf, hall⟩ :=
    pyFormatF_ok_fields [(str "NAME", nv), (str "DATE", dv)] pat.length pat out h
  refine ⟨flds, hf, ?_⟩
  intro f hfm
  obtain ⟨-, v, hlk⟩ := hall f hfm
  by_cases h1 : f = str "NAME"
  · exact Or.inl h1
  · by_cases h2 : f = str "DATE"
    · exact Or.inr h2
    · simp only [lookupKw, if_neg h1, if_neg h2] at hlk
      exact absurd hlk (by simp)

theorem c9_witness :
    ∃ flds, patternFields (str "a_" ++ fmtToken (str "NAME")) = some flds
      ∧ ∀ f ∈ flds, f = str "NAME" ∨ f = str "DATE" :=
  c9_unknown_tokens_rejected.1 (str "张三") (str "2024-05-01")
    (str "a_" ++ fmtToken (str "NAME")) (str "a_张三") (by decide)
